import Mathlib

/-!
Shallow embedding of the one-time-plex persistent state layer
(`server/datastore/store.go`).

The badger key-value engine, the `encoding/json` codec and the token cipher are
external collaborators of that file; they are modelled at the level of their
contracts: the engine as an ordered association list with transactional pending
writes (a write is refused with `emptyKey` on an empty key and with `txnTooBig`
once a transaction carries `maxBatchCount` pending operations, mirroring
badger's `ErrEmptyKey`/`ErrTxnTooBig`), the codec as structured field-named
documents, and the cipher as an ideal authenticated cipher.  Every function of
`store.go` itself is translated clause by clause; `db.Update` runs its body on
a fresh transaction and commits the pending writes on success, discarding them
on error, and `db.View` reads the committed state directly (no store operation
reads its own pending writes).
-/

namespace Datastore

/-- Errors surfaced by the store (Go returns them as `error` values):
badger's key-not-found / empty-key / transaction-too-big signals, a JSON
decode failure, the cipher's decryption failure, and the validation error
produced by `DeleteUser` on an empty id. -/
inductive StoreError where
  | keyNotFound
  | emptyKey
  | txnTooBig
  | decode
  | decryption
  | validation : String → StoreError
deriving DecidableEq

/-- Modelled from the spec: the cipher source file of this repository is not
under `src/` (only `store.go`, its caller, is).  §4.2 prescribes authenticated
symmetric encryption: `encrypt(secret, plaintext) -> ciphertext-representation`
and `decrypt(secret, representation) -> plaintext`, with deterministic failure
on malformed input or a wrong secret.  An ideal authenticated ciphertext
records the secret it was produced under and the protected body; decryption
succeeds exactly on a genuine ciphertext presented with the same secret. -/
structure Ciphertext where
  keyUsed : List Nat
  body : String
deriving DecidableEq

/-- Modelled from the spec (§4.2): encryption of a token under the in-memory
secret; the spec names no failing condition for encryption of a well-formed
key, so the ideal cipher always succeeds (the Go signature keeps an error
slot, hence the `Except`). -/
def encrypt (secret : List Nat) (token : String) : Except StoreError Ciphertext :=
  .ok ⟨secret, token⟩

/-- A JSON document as the `encoding/json` collaborator produces and consumes
it for the entity types of `store.go`: strings, booleans and field-named
objects. -/
inductive JVal where
  | jstr : String → JVal
  | jbool : Bool → JVal
  | jobj : List (String × JVal) → JVal

/-- A value stored in the engine.  The engine treats values as opaque blobs;
the tag records which encoder produced the blob: a raw byte sequence
(`SaveSecret`), a cipher representation (`SavePlexToken`), or a JSON document
(`SaveUser` / `SavePlexServer` / `SavePlexPin`). -/
inductive Val where
  | raw : List Nat → Val
  | cipher : Ciphertext → Val
  | json : JVal → Val

/-- Modelled from the spec (§4.2): decryption with a secret.  A genuine
ciphertext under the same secret yields its body; a different secret or a
malformed (non-ciphertext) input fails deterministically with
`DecryptionError`. -/
def decrypt (secret : List Nat) (v : Val) : Except StoreError String :=
  match v with
  | .cipher c => if c.keyUsed = secret then .ok c.body else .error .decryption
  | _ => .error .decryption

/-- `AssignedMedia` of `store.go` (lines 49-53). -/
structure AssignedMedia where
  ID : String
  Title : String
  Status : String
deriving DecidableEq

/-- `User` of `store.go` (lines 33-46); the embedded `AssignedMedia` field
carries the JSON name `assignedMedia`. -/
structure User where
  PlexUserID : String
  Name : String
  assignedMedia : AssignedMedia
  StoppingPlayback : Bool
  IsPlaybackStopped : Bool
  RevokeAccess : Bool
  IsFriend : Bool
deriving DecidableEq

/-- `Server` of `store.go` (lines 61-64). -/
structure Server where
  Name : String
  URL : String
deriving DecidableEq

/-- JSON document produced by `json.Marshal` for an `AssignedMedia` value:
fields in declaration order under their tag names. -/
def encodeMedia (m : AssignedMedia) : JVal :=
  .jobj [("id", .jstr m.ID), ("title", .jstr m.Title), ("status", .jstr m.Status)]

/-- JSON document produced by `json.Marshal` for a `User` value: fields in
declaration order under their tag names (`plexUserID`, `plexUsername`,
`assignedMedia`, `stoppingPlayback`, `playbackIsStopped`, `revokeAccess`,
`isFriend`). -/
def encodeUser (u : User) : JVal :=
  .jobj [("plexUserID", .jstr u.PlexUserID),
         ("plexUsername", .jstr u.Name),
         ("assignedMedia", encodeMedia u.assignedMedia),
         ("stoppingPlayback", .jbool u.StoppingPlayback),
         ("playbackIsStopped", .jbool u.IsPlaybackStopped),
         ("revokeAccess", .jbool u.RevokeAccess),
         ("isFriend", .jbool u.IsFriend)]

/-- JSON document produced by `json.Marshal` for a `Server` value. -/
def encodeServer (s : Server) : JVal :=
  .jobj [("name", .jstr s.Name), ("url", .jstr s.URL)]

/-- Field lookup in a JSON object, as `json.Unmarshal` resolves a struct
field by its tag name. -/
def lookupField (fields : List (String × JVal)) (name : String) : Option JVal :=
  match fields with
  | [] => none
  | (n, v) :: rest => if n = name then some v else lookupField rest name

/-- `json.Unmarshal` resolution of a string-typed struct field: a missing
field leaves the zero value `""`, a present string is taken, and a
wrongly-typed value is an unmarshal error. -/
def getStr (fields : List (String × JVal)) (name : String) : Except StoreError String :=
  match lookupField fields name with
  | none => .ok ""
  | some (.jstr s) => .ok s
  | some _ => .error .decode

/-- `json.Unmarshal` resolution of a boolean-typed struct field: a missing
field leaves the zero value `false`. -/
def getBool (fields : List (String × JVal)) (name : String) : Except StoreError Bool :=
  match lookupField fields name with
  | none => .ok false
  | some (.jbool b) => .ok b
  | some _ => .error .decode

/-- `json.Unmarshal` of an `AssignedMedia` document: the top level must be an
object; unknown fields are ignored, missing fields keep zero values. -/
def decodeMedia (v : JVal) : Except StoreError AssignedMedia :=
  match v with
  | .jobj fields => do
    let id ← getStr fields "id"
    let title ← getStr fields "title"
    let status ← getStr fields "status"
    .ok ⟨id, title, status⟩
  | _ => .error .decode

/-- `json.Unmarshal` resolution of the nested `assignedMedia` field. -/
def getMedia (fields : List (String × JVal)) : Except StoreError AssignedMedia :=
  match lookupField fields "assignedMedia" with
  | none => .ok ⟨"", "", ""⟩
  | some v => decodeMedia v

/-- `json.Unmarshal` of a `User` document. -/
def decodeUser (v : JVal) : Except StoreError User :=
  match v with
  | .jobj fields => do
    let pid ← getStr fields "plexUserID"
    let name ← getStr fields "plexUsername"
    let media ← getMedia fields
    let stopping ← getBool fields "stoppingPlayback"
    let stopped ← getBool fields "playbackIsStopped"
    let revoke ← getBool fields "revokeAccess"
    let friend ← getBool fields "isFriend"
    .ok ⟨pid, name, media, stopping, stopped, revoke, friend⟩
  | _ => .error .decode

/-- `json.Unmarshal` of a `Server` document. -/
def decodeServer (v : JVal) : Except StoreError Server :=
  match v with
  | .jobj fields => do
    let name ← getStr fields "name"
    let url ← getStr fields "url"
    .ok ⟨name, url⟩
  | _ => .error .decode

/-- `User.Serialize` (store.go lines 56-58): `json.Marshal`, which cannot fail
on a struct of strings and booleans; the Go signature keeps an error slot. -/
def User.Serialize (u : User) : Except StoreError Val :=
  .ok (.json (encodeUser u))

/-- `Server.Serialize` (store.go lines 67-69). -/
def Server.Serialize (s : Server) : Except StoreError Val :=
  .ok (.json (encodeServer s))

/-- `UnserializeUser` (store.go lines 81-87): `json.Unmarshal` into a `User`;
a blob that is not a JSON document fails to parse. -/
def UnserializeUser (v : Val) : Except StoreError User :=
  match v with
  | .json j => decodeUser j
  | _ => .error .decode

/-- `UnserializeServer` (store.go lines 72-78). -/
def UnserializeServer (v : Val) : Except StoreError Server :=
  match v with
  | .json j => decodeServer j
  | _ => .error .decode

/-- Strict lexicographic comparison of character sequences, the key order of
the engine (badger's `bytes.Compare` on UTF-8 bytes, which agrees with
code-point order). -/
def charListLt : List Char → List Char → Bool
  | _, [] => false
  | [], _ :: _ => true
  | a :: as, b :: bs => if a = b then charListLt as bs else decide (a < b)

/-- Key comparison: `strLt a b` holds when key `a` sorts strictly before key
`b` in the engine's byte order. -/
def strLt (a b : String) : Bool :=
  charListLt a.data b.data

/-- The engine's committed state: an association list of key/value pairs,
kept sorted strictly ascending by key (badger iterates keys in byte order). -/
abbrev Engine := List (String × Val)

/-- Point read (`txn.Get` against the committed state). -/
def engineGet (e : Engine) (k : String) : Option Val :=
  match e with
  | [] => none
  | (k', v) :: rest => if k' = k then some v else engineGet rest k

/-- Ordered insert-or-replace, the committed effect of a `txn.Set`. -/
def engineInsert (e : Engine) (k : String) (v : Val) : Engine :=
  match e with
  | [] => [(k, v)]
  | (k', v') :: rest =>
    if strLt k k' then (k, v) :: (k', v') :: rest
    else if k = k' then (k, v) :: rest
    else (k', v') :: engineInsert rest k v

/-- Removal of a key, the committed effect of a `txn.Delete`. -/
def engineErase (e : Engine) (k : String) : Engine :=
  match e with
  | [] => []
  | (k', v') :: rest => if k' = k then engineErase rest k else (k', v') :: engineErase rest k

/-- Engine configuration: the pending-operation budget of one read-write
transaction (badger's `maxBatchCount`, behind `ErrTxnTooBig`). -/
structure EngineCfg where
  maxBatchCount : Nat

/-- Pending writes of one read-write transaction, in order: `some v` records a
`txn.Set`, `none` a `txn.Delete`. -/
abbrev Pending := List (String × Option Val)

/-- `txn.Set`: refused on an empty key (`ErrEmptyKey`) and once the
transaction already carries `maxBatchCount` operations (`ErrTxnTooBig`). -/
def txnSet (cfg : EngineCfg) (pending : Pending) (k : String) (v : Val) :
    Except StoreError Pending :=
  if k = "" then .error .emptyKey
  else if cfg.maxBatchCount ≤ pending.length then .error .txnTooBig
  else .ok (pending ++ [(k, some v)])

/-- `txn.Delete`: same refusal conditions as `txn.Set`; deleting an absent key
is not an error. -/
def txnDelete (cfg : EngineCfg) (pending : Pending) (k : String) :
    Except StoreError Pending :=
  if k = "" then .error .emptyKey
  else if cfg.maxBatchCount ≤ pending.length then .error .txnTooBig
  else .ok (pending ++ [(k, none)])

/-- Committing one pending write into the engine state. -/
def applyWrite (e : Engine) (w : String × Option Val) : Engine :=
  match w.2 with
  | some v => engineInsert e w.1 v
  | none => engineErase e w.1

/-- Commit of a transaction's pending writes, in order. -/
def commit (e : Engine) (pending : Pending) : Engine :=
  pending.foldl applyWrite e

/-- `db.Update`: run the body on a fresh transaction; commit its pending
writes when the body returns nil, discard them when it returns an error. -/
def runUpdate (e : Engine) (body : Except StoreError Pending) :
    Engine × Except StoreError Unit :=
  match body with
  | .error er => (e, .error er)
  | .ok pending => (commit e pending, .ok ())

/-- `StoreKeys` (store.go lines 23-30). -/
structure StoreKeys where
  appSecret : String
  plexToken : String
  plexPin : String
  plexServer : String
  userPrefix : String
  allUsers : String
deriving DecidableEq

/-- `Store` (store.go lines 15-20); the engine handle itself is passed as
explicit state to each operation. -/
structure Store where
  isClosed : Bool
  keys : StoreKeys
  Secret : List Nat
deriving DecidableEq

/-- `var isVerbose bool` (store.go line 12): a Go package-level boolean starts
at its zero value, `false`. -/
def isVerboseInitial : Bool := false

/-- `InitDataStore` (store.go lines 89-137): the package-level verbose flag is
reassigned only inside `if isVerbose { isVerbose = _isVerbose; ... }`, i.e.
only when it is already true; the directory bookkeeping and engine opening are
infrastructure and cannot change the returned handle, which carries the fixed
key namespace, an open (`isClosed = false`) state and an empty secret slot.
The returned pair is (store handle, new value of the package-level flag). -/
def InitDataStore (dirName : String) ( _isVerbose : Bool) (isVerbose : Bool) :
    Store × Bool :=
  let isVerboseNew := if isVerbose then _isVerbose else isVerbose
  let _ := dirName
  (⟨false,
    ⟨"app-secret", "plex-token", "plex-pin", "plex-server", "user-", "users"⟩,
    []⟩,
   isVerboseNew)

/-- Observable action of one `Close` call. -/
inductive CloseAction where
  | engineClosed
  | alreadyClosedReport
deriving DecidableEq

/-- `Store.Close` (store.go lines 140-155).  The receiver is a value receiver:
`s.isClosed = true` on line 154 mutates the copy, which is then discarded, so
the handle the caller keeps is returned unchanged in both branches; the first
component is that caller-visible handle, the second the action taken. -/
def Store.Close (s : Store) : Store × CloseAction :=
  if s.isClosed then (s, .alreadyClosedReport)
  else (s, .engineClosed)

/-- `Store.GetSecret` (store.go lines 158-182): read-only transaction; every
error of the view body (in particular key-not-found) is swallowed and the
`secret` variable keeps its zero value, the empty byte sequence.  The
`app-secret` key is only ever written by `SaveSecret` with a raw blob. -/
def Store.GetSecret (s : Store) (e : Engine) : List Nat :=
  match engineGet e s.keys.appSecret with
  | some (.raw b) => b
  | _ => []

/-- `Store.SaveSecret` (store.go lines 185-189). -/
def Store.SaveSecret (s : Store) (cfg : EngineCfg) (e : Engine) (secret : List Nat) :
    Engine × Except StoreError Unit :=
  runUpdate e (txnSet cfg [] s.keys.appSecret (.raw secret))

/-- `Store.GetPlexToken` (store.go lines 192-229): read the ciphertext under
the plex-token key, decrypt with the in-memory secret; key absence and
decryption failure are returned to the caller. -/
def Store.GetPlexToken (s : Store) (e : Engine) : Except StoreError String :=
  match engineGet e s.keys.plexToken with
  | none => .error .keyNotFound
  | some v => decrypt s.Secret v

/-- `Store.SavePlexToken` (store.go lines 232-254): encrypt with the in-memory
secret, then write the ciphertext in one transaction; an encryption failure
returns before any write. -/
def Store.SavePlexToken (s : Store) (cfg : EngineCfg) (e : Engine) (token : String) :
    Engine × Except StoreError Unit :=
  match encrypt s.Secret token with
  | .error er => (e, .error er)
  | .ok tokenHash =>
    runUpdate e (txnSet cfg [] s.keys.plexToken (.cipher tokenHash))

/-- `Store.GetPlexServer` (store.go lines 315-343). -/
def Store.GetPlexServer (s : Store) (e : Engine) : Except StoreError Server :=
  match engineGet e s.keys.plexServer with
  | none => .error .keyNotFound
  | some v => UnserializeServer v

/-- `Store.SavePlexServer` (store.go lines 346-355). -/
def Store.SavePlexServer (s : Store) (cfg : EngineCfg) (e : Engine) (plexServer : Server) :
    Engine × Except StoreError Unit :=
  match plexServer.Serialize with
  | .error er => (e, .error er)
  | .ok serializedServer =>
    runUpdate e (txnSet cfg [] s.keys.plexServer serializedServer)

/-- `Store.SaveUser` (store.go lines 358-370): key is the user-record prefix
concatenated with the user's `PlexUserID`, verbatim. -/
def Store.SaveUser (s : Store) (cfg : EngineCfg) (e : Engine) (user : User) :
    Engine × Except StoreError Unit :=
  runUpdate e
    (match user.Serialize with
     | .error er => .error er
     | .ok serializedUser =>
       txnSet cfg [] (s.keys.userPrefix ++ user.PlexUserID) serializedUser)

/-- Body of the `SaveUsers` loop (store.go lines 375-389): serialize and
`txn.Set` each user in order; the first failure is returned and aborts the
transaction. -/
def saveUsersLoop (s : Store) (cfg : EngineCfg) (pending : Pending) :
    List User → Except StoreError Pending
  | [] => .ok pending
  | user :: rest =>
    match user.Serialize with
    | .error er => .error er
    | .ok serializedUser =>
      match txnSet cfg pending (s.keys.userPrefix ++ user.PlexUserID) serializedUser with
      | .error er => .error er
      | .ok pending' => saveUsersLoop s cfg pending' rest

/-- `Store.SaveUsers` (store.go lines 373-393): the whole batch inside one
read-write transaction. -/
def Store.SaveUsers (s : Store) (cfg : EngineCfg) (e : Engine) (users : List User) :
    Engine × Except StoreError Unit :=
  runUpdate e (saveUsersLoop s cfg [] users)

/-- `Store.GetUser` (store.go lines 396-429). -/
def Store.GetUser (s : Store) (e : Engine) (id : String) : Except StoreError User :=
  match engineGet e (s.keys.userPrefix ++ id) with
  | none => .error .keyNotFound
  | some v => UnserializeUser v

/-- Insert-or-overwrite into the `users` result map (`users[user.PlexUserID] =
user` on a Go map). -/
def mapInsert (m : List (String × User)) (k : String) (u : User) : List (String × User) :=
  match m with
  | [] => [(k, u)]
  | (k', u') :: rest => if k' = k then (k, u) :: rest else (k', u') :: mapInsert rest k u

/-- Lookup in the result map. -/
def mapLookup (m : List (String × User)) (k : String) : Option User :=
  match m with
  | [] => none
  | (k', u') :: rest => if k' = k then some u' else mapLookup rest k

/-- Body of the `GetAllUsers` iterator loop (store.go lines 447-465): for each
remaining entry, in key order, deserialize the value and insert the user
keyed by its `PlexUserID`; a deserialization failure stops the loop and is
returned together with the partially built map. -/
def getAllUsersLoop (users : List (String × User)) :
    List (String × Val) → List (String × User) × Option StoreError
  | [] => (users, none)
  | (_, v) :: rest =>
    match UnserializeUser v with
    | .error er => (users, some er)
    | .ok user => getAllUsersLoop (mapInsert users user.PlexUserID user) rest

/-- `Store.GetAllUsers` (store.go lines 432-471): a forward iterator seeked to
the user-record prefix — on the sorted engine state this skips exactly the
keys strictly below the prefix — and a loop guarded by `it.Valid()`, which
runs to the end of the keyspace. -/
def Store.GetAllUsers (s : Store) (e : Engine) :
    List (String × User) × Option StoreError :=
  getAllUsersLoop [] (e.dropWhile (fun kv => strLt kv.1 s.keys.userPrefix))

/-- `Store.DeleteUser` (store.go lines 474-486): an empty id fails with a
validation error before any engine operation; otherwise one transaction
deletes the derived user key. -/
def Store.DeleteUser (s : Store) (cfg : EngineCfg) (e : Engine) (id : String) :
    Engine × Except StoreError Unit :=
  if id = "" then (e, .error (.validation "id is required"))
  else runUpdate e (txnDelete cfg [] (s.keys.userPrefix ++ id))

/-- Body of the `DeleteUsers` loop (store.go lines 493-500): attempt a delete
per id; a per-id failure is printed and the loop continues with the pending
writes unchanged.  The body never returns an error. -/
def deleteUsersLoop (s : Store) (cfg : EngineCfg) (pending : Pending) :
    List String → Pending
  | [] => pending
  | id :: rest =>
    match txnDelete cfg pending (s.keys.userPrefix ++ id) with
    | .error _ => deleteUsersLoop s cfg pending rest
    | .ok pending' => deleteUsersLoop s cfg pending' rest

/-- `Store.DeleteUsers` (store.go lines 489-506): one read-write transaction;
per-id failures are swallowed, so the body always returns nil and the
accumulated deletes are committed. -/
def Store.DeleteUsers (s : Store) (cfg : EngineCfg) (e : Engine) (userIDs : List String) :
    Engine × Except StoreError Unit :=
  runUpdate e (.ok (deleteUsersLoop s cfg [] userIDs))

/-- The key namespace that `InitDataStore` installs (store.go lines 127-134). -/
def stdKeys : StoreKeys :=
  ⟨"app-secret", "plex-token", "plex-pin", "plex-server", "user-", "users"⟩

/-- The last pending write recorded for a key in a transaction, if any: `some
(some v)` when the surviving write is a set, `some none` when it is a delete,
`none` when the transaction never touched the key. -/
def lastWrite : Pending → String → Option (Option Val)
  | [], _ => none
  | (k', w) :: rest, k =>
    match lastWrite rest k with
    | some r => some r
    | none => if k' = k then some w else none

/-- The engine invariant: keys strictly ascending in byte order. -/
def EngineSorted (e : Engine) : Prop :=
  List.Chain' (fun a b => strLt a.1 b.1 = true) e

/-- An engine state containing only entries this store writes: the four
singleton keys (the `users` marker key is reserved but never written), and
user records serialized under the user key derived from their own
`PlexUserID`. -/
def WellFormed (e : Engine) : Prop :=
  EngineSorted e ∧
  ∀ kv ∈ e,
    (kv.1 = "app-secret" ∨ kv.1 = "plex-token" ∨ kv.1 = "plex-pin" ∨ kv.1 = "plex-server") ∨
    ∃ u : User, kv.1 = "user-" ++ u.PlexUserID ∧ kv.2 = Val.json (encodeUser u)

/-- A store handle as the public constructor returns it. -/
def stdStore : Store := (InitDataStore "otp" false isVerboseInitial).1

/-- Sample users for concrete instances. -/
def userA : User := ⟨"A", "alice", ⟨"m1", "movie one", "watching"⟩, false, false, false, true⟩

def userB : User := ⟨"B", "bob", ⟨"m2", "movie two", "queued"⟩, true, false, false, false⟩

def userC : User := ⟨"C", "carol", ⟨"m3", "movie three", "done"⟩, false, true, true, false⟩

def userZ : User := ⟨"zzid", "mallory", ⟨"m9", "movie nine", "watching"⟩, false, false, false, false⟩

/-- The last user in a list whose `PlexUserID` is the given id, if any (the
survivor of the map-insert loop of `GetAllUsers`). -/
def findPidLast (us : List User) (id : String) : Option User :=
  match us with
  | [] => none
  | u :: rest =>
    match findPidLast rest id with
    | some r => some r
    | none => if u.PlexUserID = id then some u else none

/-- The prefix-scan claim on `GetAllUsers`, as stated: on every (sorted)
engine state, whatever other keys are present, every record in the result was
stored under a key derived from the user-record prefix — the scan never picks
up a record stored under a key outside the prefix. -/
def prefixScanClaim : Prop :=
  ∀ e : Engine, EngineSorted e →
    ∀ p ∈ (Store.GetAllUsers stdStore e).1,
      ∃ u : User, ("user-" ++ p.1, Val.json (encodeUser u)) ∈ e

/-! ### Basic facts about keys and the key order -/

theorem dataAppend (a b : String) : (a ++ b).data = a.data ++ b.data := by
  cases a; cases b; rfl

theorem strExt {a b : String} (h : a.data = b.data) : a = b := by
  cases a; cases b; cases h; rfl

theorem strAppend_cancel {p a b : String} (h : p ++ a = p ++ b) : a = b := by
  have h2 := congrArg String.data h
  rw [dataAppend, dataAppend] at h2
  exact strExt (List.append_cancel_left h2)

/-- A key of the form `user-<id>` is told apart from any string whose first
five characters are not `user-`. -/
theorem userKey_ne_of_take (id k : String)
    (h5 : k.data.take 5 ≠ (['u', 's', 'e', 'r', '-'] : List Char)) :
    "user-" ++ id ≠ k := by
  intro h
  apply h5
  have h2 := congrArg (fun s => s.data.take 5) h
  exact h2.symm.trans rfl

theorem charListLt_nil_right (l : List Char) : charListLt l [] = false := by
  cases l <;> rfl

theorem charListLt_irrefl : ∀ l : List Char, charListLt l l = false
  | [] => rfl
  | a :: as => by simp [charListLt, charListLt_irrefl as]

theorem charListLt_append_self : ∀ p q : List Char, charListLt (p ++ q) p = false
  | [], q => charListLt_nil_right q
  | a :: p, q => by
    simpa [charListLt] using charListLt_append_self p q

theorem charListLt_trans : ∀ {a b c : List Char},
    charListLt a b = true → charListLt b c = true → charListLt a c = true
  | _, [], _, h1, _ => by rw [charListLt_nil_right] at h1; exact absurd h1 (by simp)
  | _, _ :: _, [], _, h2 => by rw [charListLt_nil_right] at h2; exact absurd h2 (by simp)
  | [], _ :: _, _ :: _, _, _ => rfl
  | x :: xs, y :: ys, z :: zs, h1, h2 => by
    simp only [charListLt] at h1 h2 ⊢
    by_cases hxy : x = y <;> by_cases hyz : y = z
    · subst hxy; subst hyz
      simp only [if_pos rfl] at h1 h2 ⊢
      exact charListLt_trans h1 h2
    · subst hxy
      rw [if_pos rfl] at h1
      rw [if_neg hyz] at h2 ⊢
      exact h2
    · subst hyz
      rw [if_neg hxy] at h1 ⊢
      exact h1
    · rw [if_neg hxy] at h1
      rw [if_neg hyz] at h2
      have hx : x < y := of_decide_eq_true h1
      have hy : y < z := of_decide_eq_true h2
      have hxz : x < z := lt_trans hx hy
      rw [if_neg (ne_of_lt hxz)]
      exact decide_eq_true hxz

theorem strLt_irrefl (a : String) : strLt a a = false :=
  charListLt_irrefl a.data

theorem strLt_trans {a b c : String} (h1 : strLt a b = true) (h2 : strLt b c = true) :
    strLt a c = true :=
  charListLt_trans h1 h2

/-- No key is strictly below its own extension: seeking to a prefix never
skips a key that carries that prefix. -/
theorem strLt_append_self (p q : String) : strLt (p ++ q) p = false := by
  unfold strLt
  rw [dataAppend]
  exact charListLt_append_self p.data q.data



/-! ### Engine point-operation lemmas -/

theorem engineGet_insert_self (e : Engine) (k : String) (v : Val) :
    engineGet (engineInsert e k v) k = some v := by
  induction e with
  | nil => simp [engineInsert, engineGet]
  | cons kv rest ih =>
    obtain ⟨k', v'⟩ := kv
    simp only [engineInsert]
    by_cases h1 : strLt k k' = true
    · rw [if_pos h1]; simp [engineGet]
    · rw [if_neg h1]
      by_cases h2 : k = k'
      · rw [if_pos h2]; simp [engineGet]
      · rw [if_neg h2]
        simp only [engineGet]
        rw [if_neg (fun hh : k' = k => h2 hh.symm)]
        exact ih

theorem engineGet_insert_ne (e : Engine) (k q : String) (v : Val) (h : q ≠ k) :
    engineGet (engineInsert e k v) q = engineGet e q := by
  have hkq : k ≠ q := fun hh => h hh.symm
  induction e with
  | nil =>
    simp only [engineInsert, engineGet]
    rw [if_neg hkq]
  | cons kv rest ih =>
    obtain ⟨k', v'⟩ := kv
    simp only [engineInsert]
    by_cases h1 : strLt k k' = true
    · rw [if_pos h1]
      simp only [engineGet]
      rw [if_neg hkq]
    · rw [if_neg h1]
      by_cases h2 : k = k'
      · subst h2
        rw [if_pos rfl]
        simp only [engineGet]
        rw [if_neg hkq, if_neg hkq]
      · rw [if_neg h2]
        simp only [engineGet]
        by_cases h3 : k' = q
        · rw [if_pos h3, if_pos h3]
        · rw [if_neg h3, if_neg h3]
          exact ih

theorem engineGet_erase_self (e : Engine) (k : String) :
    engineGet (engineErase e k) k = none := by
  induction e with
  | nil => rfl
  | cons kv rest ih =>
    obtain ⟨k', v'⟩ := kv
    simp only [engineErase]
    by_cases h : k' = k
    · rw [if_pos h]; exact ih
    · rw [if_neg h]
      simp only [engineGet]
      rw [if_neg h]
      exact ih

theorem engineGet_erase_ne (e : Engine) (k q : String) (h : q ≠ k) :
    engineGet (engineErase e k) q = engineGet e q := by
  induction e with
  | nil => rfl
  | cons kv rest ih =>
    obtain ⟨k', v'⟩ := kv
    simp only [engineErase]
    by_cases hk : k' = k
    · subst hk
      rw [if_pos rfl]
      simp only [engineGet]
      rw [if_neg (fun hh : k' = q => h (hh ▸ rfl))]
      exact ih
    · rw [if_neg hk]
      simp only [engineGet]
      by_cases h3 : k' = q
      · rw [if_pos h3, if_pos h3]
      · rw [if_neg h3, if_neg h3]
        exact ih

theorem erase_of_absent (e : Engine) (k : String) (h : engineGet e k = none) :
    engineErase e k = e := by
  induction e with
  | nil => rfl
  | cons kv rest ih =>
    obtain ⟨k', v'⟩ := kv
    simp only [engineGet] at h
    by_cases hk : k' = k
    · rw [if_pos hk] at h
      exact absurd h (by simp)
    · rw [if_neg hk] at h
      simp only [engineErase]
      rw [if_neg hk, ih h]

/-! ### Commit lemmas -/

theorem engineGet_commit (pending : Pending) (e : Engine) (k : String) :
    engineGet (commit e pending) k =
      match lastWrite pending k with
      | some (some v) => some v
      | some none => none
      | none => engineGet e k := by
  induction pending generalizing e with
  | nil => rfl
  | cons w rest ih =>
    obtain ⟨k', wv⟩ := w
    rw [show commit e ((k', wv) :: rest) = commit (applyWrite e (k', wv)) rest from rfl, ih]
    cases hlw : lastWrite rest k with
    | some r =>
      simp only [lastWrite, hlw]
      cases r <;> rfl
    | none =>
      simp only [lastWrite, hlw]
      by_cases hk : k' = k
      · subst hk
        rw [if_pos rfl]
        cases wv with
        | some v => simpa [applyWrite] using engineGet_insert_self e k' v
        | none => simpa [applyWrite] using engineGet_erase_self e k'
      · rw [if_neg hk]
        cases wv with
        | some v => simpa [applyWrite] using engineGet_insert_ne e k' k v (fun hh => hk hh.symm)
        | none => simpa [applyWrite] using engineGet_erase_ne e k' k (fun hh => hk hh.symm)




/-! ### Codec lemmas -/

theorem unserialize_encodeUser (u : User) :
    UnserializeUser (Val.json (encodeUser u)) = .ok u := rfl

theorem encodeUser_inj {u u' : User} (h : encodeUser u = encodeUser u') : u = u' := by
  have h2 : (Except.ok u : Except StoreError User) = Except.ok u' :=
    calc (Except.ok u : Except StoreError User) = decodeUser (encodeUser u) := rfl
    _ = decodeUser (encodeUser u') := by rw [h]
    _ = Except.ok u' := rfl
  injection h2

/-! ### SaveUsers loop characterization -/

theorem saveUsersLoop_ok (s : Store) (cfg : EngineCfg) :
    ∀ (users : List User) (acc p : Pending),
      saveUsersLoop s cfg acc users = .ok p →
      p = acc ++ users.map
        (fun u => (s.keys.userPrefix ++ u.PlexUserID, some (Val.json (encodeUser u))))
  | [], acc, p, h => by
    injection h with h
    simp [h.symm]
  | user :: rest, acc, p, h => by
    rw [saveUsersLoop] at h
    simp only [User.Serialize] at h
    rw [txnSet] at h
    by_cases h0 : (s.keys.userPrefix ++ user.PlexUserID : String) = ""
    · rw [if_pos h0] at h
      exact absurd h (by simp)
    · rw [if_neg h0] at h
      by_cases hbig : cfg.maxBatchCount ≤ acc.length
      · rw [if_pos hbig] at h
        exact absurd h (by simp)
      · rw [if_neg hbig] at h
        have := saveUsersLoop_ok s cfg rest
          (acc ++ [(s.keys.userPrefix ++ user.PlexUserID, some (Val.json (encodeUser user)))]) p h
        simp only [List.map_cons, this, List.append_assoc, List.singleton_append]

theorem lastWrite_map_shape (s : Store) :
    ∀ (users : List User) (k : String) (r : Option Val),
      lastWrite (users.map
        (fun u => (s.keys.userPrefix ++ u.PlexUserID, some (Val.json (encodeUser u))))) k
        = some r →
      ∃ u'', u'' ∈ users ∧ k = s.keys.userPrefix ++ u''.PlexUserID ∧
        r = some (Val.json (encodeUser u''))
  | [], k, r, h => by simp [lastWrite] at h
  | u :: rest, k, r, h => by
    rw [List.map_cons, lastWrite] at h
    cases hl : lastWrite (rest.map
        (fun u => (s.keys.userPrefix ++ u.PlexUserID, some (Val.json (encodeUser u))))) k with
    | some r' =>
      rw [hl] at h
      injection h with h
      subst h
      obtain ⟨u'', hmem, hk, hr⟩ := lastWrite_map_shape s rest k r' hl
      exact ⟨u'', List.mem_cons_of_mem _ hmem, hk, hr⟩
    | none =>
      rw [hl] at h
      by_cases hk : (s.keys.userPrefix ++ u.PlexUserID : String) = k
      · rw [if_pos hk] at h
        injection h with h
        exact ⟨u, List.mem_cons_self _ _, hk.symm, h.symm⟩
      · rw [if_neg hk] at h
        exact absurd h (by simp)

theorem lastWrite_map_last (s : Store) :
    ∀ (users : List User) (u : User), u ∈ users →
      ∃ u', u' ∈ users ∧ u'.PlexUserID = u.PlexUserID ∧
        lastWrite (users.map
          (fun u => (s.keys.userPrefix ++ u.PlexUserID, some (Val.json (encodeUser u)))))
          (s.keys.userPrefix ++ u.PlexUserID)
          = some (some (Val.json (encodeUser u')))
  | hd :: rest, u, hu => by
    rcases List.mem_cons.mp hu with hu | hu
    · subst hu
      rw [List.map_cons, lastWrite]
      cases hl : lastWrite (rest.map
          (fun u => (s.keys.userPrefix ++ u.PlexUserID, some (Val.json (encodeUser u)))))
          (s.keys.userPrefix ++ u.PlexUserID) with
      | some r =>
        obtain ⟨u'', hmem, hk, hr⟩ := lastWrite_map_shape s rest _ r hl
        refine ⟨u'', List.mem_cons_of_mem _ hmem, (strAppend_cancel hk).symm, ?_⟩
        rw [hr]
      | none =>
        rw [if_pos rfl]
        exact ⟨u, List.mem_cons_self _ _, rfl, rfl⟩
    · obtain ⟨u', hmem, hpid, hlw⟩ := lastWrite_map_last s rest u hu
      refine ⟨u', List.mem_cons_of_mem _ hmem, hpid, ?_⟩
      rw [List.map_cons, lastWrite, hlw]

/-- Claim C1: `SaveUsers` is all-or-nothing.  The whole batch runs inside one
read-write transaction; if serialization or a write fails on any element the
transaction aborts and none of the writes of that call are committed — in
particular `GetUser` still answers NotFound for every id that was absent
before the failed call — while a successful call commits a record for every
user of the batch (on duplicate ids, the last occurrence wins). -/
theorem saveUsers_atomic (s : Store) (cfg : EngineCfg) (e : Engine) (users : List User) :
    (∀ er, (Store.SaveUsers s cfg e users).2 = .error er →
      (Store.SaveUsers s cfg e users).1 = e ∧
      ∀ id, engineGet e (s.keys.userPrefix ++ id) = none →
        Store.GetUser s (Store.SaveUsers s cfg e users).1 id = .error .keyNotFound) ∧
    ((Store.SaveUsers s cfg e users).2 = .ok () →
      ∀ u ∈ users, ∃ u', u' ∈ users ∧ u'.PlexUserID = u.PlexUserID ∧
        engineGet (Store.SaveUsers s cfg e users).1 (s.keys.userPrefix ++ u.PlexUserID)
          = some (Val.json (encodeUser u'))) := by
  constructor
  · intro er her
    cases hloop : saveUsersLoop s cfg [] users with
    | ok p =>
      rw [Store.SaveUsers, hloop] at her
      simp [runUpdate] at her
    | error er' =>
      have hres : Store.SaveUsers s cfg e users = (e, .error er') := by
        rw [Store.SaveUsers, hloop]
        rfl
      constructor
      · rw [hres]
      · intro id habs
        rw [hres]
        simp only [Store.GetUser, habs]
  · intro hok u hu
    cases hloop : saveUsersLoop s cfg [] users with
    | error er' =>
      rw [Store.SaveUsers, hloop] at hok
      simp [runUpdate] at hok
    | ok p =>
      have hres : Store.SaveUsers s cfg e users = (commit e p, .ok ()) := by
        rw [Store.SaveUsers, hloop]
        rfl
      have hp := saveUsersLoop_ok s cfg users [] p hloop
      rw [List.nil_append] at hp
      subst hp
      obtain ⟨u', hmem, hpid, hlw⟩ := lastWrite_map_last s users u hu
      refine ⟨u', hmem, hpid, ?_⟩
      rw [hres]
      rw [engineGet_commit, hlw]




/-- The key at which a user record lives is never the empty string. -/
theorem userKey_ne_empty (id : String) : ("user-" ++ id : String) ≠ "" :=
  userKey_ne_of_take id "" (by decide)

-- C3 --------------------------------------------------------------------

/-- Claim C3: token round-trip and confidentiality.  For every token `t` and
every in-memory secret, `GetPlexToken` after `SavePlexToken t` with the same
secret returns exactly `t`; with a different secret it returns a
DecryptionError and never a wrong plaintext; and the only value the call
writes to the engine is the ciphertext under the plex-token key — the
plaintext is never persisted. -/
theorem plexToken_confidential (s : Store) (cfg : EngineCfg) (e : Engine) (t : String)
    (hk : s.keys = stdKeys) (hc : 0 < cfg.maxBatchCount) :
    (Store.SavePlexToken s cfg e t).2 = .ok () ∧
    Store.GetPlexToken s (Store.SavePlexToken s cfg e t).1 = .ok t ∧
    (∀ secret2, secret2 ≠ s.Secret →
      Store.GetPlexToken { s with Secret := secret2 } (Store.SavePlexToken s cfg e t).1
        = .error .decryption) ∧
    (∀ k, engineGet (Store.SavePlexToken s cfg e t).1 k = engineGet e k ∨
      (k = s.keys.plexToken ∧
        engineGet (Store.SavePlexToken s cfg e t).1 k
          = some (.cipher ⟨s.Secret, t⟩))) := by
  have hknz : s.keys.plexToken ≠ "" := by rw [hk]; decide
  have hres : Store.SavePlexToken s cfg e t
      = (engineInsert e s.keys.plexToken (.cipher ⟨s.Secret, t⟩), .ok ()) := by
    rw [Store.SavePlexToken]
    simp only [encrypt]
    rw [txnSet, if_neg hknz, if_neg (by simp; omega : ¬ cfg.maxBatchCount ≤ ([] : Pending).length)]
    rfl
  refine ⟨by rw [hres], ?_, ?_, ?_⟩
  · rw [hres]
    simp [Store.GetPlexToken, engineGet_insert_self, decrypt]
  · intro secret2 hne
    rw [hres]
    simp only [Store.GetPlexToken, engineGet_insert_self, decrypt]
    rw [if_neg (fun hh : s.Secret = secret2 => hne hh.symm)]
  · intro k
    by_cases hkk : k = s.keys.plexToken
    · subst hkk
      right
      exact ⟨rfl, by rw [hres]; exact engineGet_insert_self e s.keys.plexToken _⟩
    · left
      rw [hres]
      exact engineGet_insert_ne e s.keys.plexToken k _ hkk

theorem plexToken_confidential_witness :
    (Store.SavePlexToken { stdStore with Secret := [1, 2, 3] } ⟨1000⟩ [] "tok").2 = .ok () ∧
    Store.GetPlexToken { stdStore with Secret := [1, 2, 3] }
      (Store.SavePlexToken { stdStore with Secret := [1, 2, 3] } ⟨1000⟩ [] "tok").1 = .ok "tok" ∧
    Store.GetPlexToken { stdStore with Secret := [9] }
      (Store.SavePlexToken { stdStore with Secret := [1, 2, 3] } ⟨1000⟩ [] "tok").1
      = .error .decryption := by
  obtain ⟨h1, h2, h3, _⟩ :=
    plexToken_confidential { stdStore with Secret := [1, 2, 3] } ⟨1000⟩ [] "tok" rfl
      (by decide)
  exact ⟨h1, h2, h3 [9] (by decide)⟩

-- C4 --------------------------------------------------------------------

/-- Claim C4: the key namespace is collision-free.  `InitDataStore` installs
the fixed key set; distinct user ids derive distinct user keys (prefix
concatenation is injective); and no derived user key ever equals any of the
singleton keys `app-secret`, `plex-token`, `plex-pin`, `plex-server` or the
reserved `users` marker. -/
theorem keyspace_collision_free :
    (∀ dirName b v, ((InitDataStore dirName b v).1).keys = stdKeys) ∧
    (∀ id1 id2 : String, id1 ≠ id2 →
      stdKeys.userPrefix ++ id1 ≠ stdKeys.userPrefix ++ id2) ∧
    (∀ id : String,
      stdKeys.userPrefix ++ id ≠ stdKeys.appSecret ∧
      stdKeys.userPrefix ++ id ≠ stdKeys.plexToken ∧
      stdKeys.userPrefix ++ id ≠ stdKeys.plexPin ∧
      stdKeys.userPrefix ++ id ≠ stdKeys.plexServer ∧
      stdKeys.userPrefix ++ id ≠ stdKeys.allUsers) := by
  refine ⟨fun dirName b v => rfl, ?_, ?_⟩
  · intro id1 id2 hne h
    exact hne (strAppend_cancel h)
  · intro id
    exact ⟨userKey_ne_of_take id _ (by decide), userKey_ne_of_take id _ (by decide),
      userKey_ne_of_take id _ (by decide), userKey_ne_of_take id _ (by decide),
      userKey_ne_of_take id _ (by decide)⟩

theorem keyspace_collision_free_witness :
    ("user-" : String) ++ "A" ≠ "user-" ++ "B" ∧ ("user-" : String) ++ "s" ≠ "users" :=
  ⟨keyspace_collision_free.2.1 "A" "B" (by decide),
   (keyspace_collision_free.2.2 "s").2.2.2.2⟩

-- C6 --------------------------------------------------------------------

/-- Claim C6: `GetSecret` never surfaces absence as an error.  When the
app-secret key is absent the call returns the empty byte sequence (its
signature carries no error channel at all, so nothing is propagated), and
after `SaveSecret s` it returns exactly `s`. -/
theorem getSecret_absent_empty (s : Store) (cfg : EngineCfg) (e : Engine)
    (hk : s.keys = stdKeys) (hc : 0 < cfg.maxBatchCount) :
    (engineGet e s.keys.appSecret = none → Store.GetSecret s e = []) ∧
    (∀ secret : List Nat,
      (Store.SaveSecret s cfg e secret).2 = .ok () ∧
      Store.GetSecret s (Store.SaveSecret s cfg e secret).1 = secret) := by
  constructor
  · intro habs
    rw [Store.GetSecret, habs]
  · intro secret
    have hknz : s.keys.appSecret ≠ "" := by rw [hk]; decide
    have hres : Store.SaveSecret s cfg e secret
        = (engineInsert e s.keys.appSecret (.raw secret), .ok ()) := by
      rw [Store.SaveSecret, txnSet, if_neg hknz,
        if_neg (by simp; omega : ¬ cfg.maxBatchCount ≤ ([] : Pending).length)]
      rfl
    refine ⟨by rw [hres], ?_⟩
    rw [hres]
    simp only [Store.GetSecret, engineGet_insert_self]

theorem getSecret_absent_empty_witness :
    Store.GetSecret stdStore [] = [] ∧
    Store.GetSecret stdStore (Store.SaveSecret stdStore ⟨1000⟩ [] [7, 7]).1 = [7, 7] :=
  ⟨(getSecret_absent_empty stdStore ⟨1000⟩ [] rfl (by decide)).1 rfl,
   ((getSecret_absent_empty stdStore ⟨1000⟩ [] rfl (by decide)).2 [7, 7]).2⟩

-- C7 --------------------------------------------------------------------

/-- Claim C7 (refuted — evaluation of the code at the failing input): `Close`
has a value receiver, so the `isClosed := true` assignment mutates a
discarded copy; after a first `Close` on a fresh handle, the handle's
`isClosed` flag is still `false` and a second `Close` invokes the engine's
close again instead of reporting the already-closed condition. -/
theorem close_reenters_engine_close :
    (stdStore.Close.1.Close).2 = CloseAction.engineClosed ∧
    stdStore.Close.1.isClosed = false :=
  ⟨rfl, rfl⟩

-- C8 --------------------------------------------------------------------

/-- Claim C8: `DeleteUser` validates before I/O.  `DeleteUser ""` returns the
validation error with the engine state untouched; for every non-empty id the
call deletes exactly the derived user key in one transaction, and deleting a
non-existent key is not an error (the state is simply unchanged). -/
theorem deleteUser_empty_id_guard (s : Store) (cfg : EngineCfg) (e : Engine)
    (hk : s.keys = stdKeys) :
    (Store.DeleteUser s cfg e "" = (e, .error (.validation "id is required"))) ∧
    (∀ id, id ≠ "" → 0 < cfg.maxBatchCount →
      Store.DeleteUser s cfg e id
        = (engineErase e (s.keys.userPrefix ++ id), .ok ()) ∧
      (engineGet e (s.keys.userPrefix ++ id) = none →
        (Store.DeleteUser s cfg e id).1 = e)) := by
  constructor
  · rw [Store.DeleteUser, if_pos rfl]
  · intro id hid hc
    have hknz : (s.keys.userPrefix ++ id : String) ≠ "" := by
      rw [hk]
      exact userKey_ne_empty id
    have hres : Store.DeleteUser s cfg e id
        = (engineErase e (s.keys.userPrefix ++ id), .ok ()) := by
      rw [Store.DeleteUser, if_neg hid, txnDelete, if_neg hknz,
        if_neg (by simp; omega : ¬ cfg.maxBatchCount ≤ ([] : Pending).length)]
      rfl
    refine ⟨hres, fun habs => ?_⟩
    rw [hres]
    exact erase_of_absent e _ habs

theorem deleteUser_empty_id_guard_witness :
    Store.DeleteUser stdStore ⟨1000⟩ [("user-A", Val.json (encodeUser userA))] ""
      = ([("user-A", Val.json (encodeUser userA))], .error (.validation "id is required")) ∧
    Store.DeleteUser stdStore ⟨1000⟩ [("user-A", Val.json (encodeUser userA))] "A"
      = ([], .ok ()) ∧
    (Store.DeleteUser stdStore ⟨1000⟩ [("user-A", Val.json (encodeUser userA))] "B").1
      = [("user-A", Val.json (encodeUser userA))] := by
  obtain ⟨h1, h2⟩ :=
    deleteUser_empty_id_guard stdStore ⟨1000⟩ [("user-A", Val.json (encodeUser userA))] rfl
  refine ⟨h1, ?_, ?_⟩
  · rw [(h2 "A" (by decide) (by decide)).1]
    rfl
  · exact (h2 "B" (by decide) (by decide)).2 rfl

-- C9 --------------------------------------------------------------------

/-- Claim C9: codec round-trip.  For every in-memory `User` and `Server`
value — including edge cases with empty strings and zero-value booleans,
which the universal quantifier covers — decoding the serialized form returns
the value with no error, while structurally invalid stored bytes fail with a
decode error. -/
theorem codec_roundtrip :
    (∀ u : User, (User.Serialize u).bind UnserializeUser = .ok u) ∧
    (∀ v : Server, (Server.Serialize v).bind UnserializeServer = .ok v) ∧
    UnserializeUser (Val.json (.jbool true)) = .error .decode ∧
    UnserializeUser (Val.json (.jobj [("plexUserID", .jbool false)])) = .error .decode ∧
    UnserializeUser (Val.raw [0, 1]) = .error .decode ∧
    UnserializeServer (Val.json (.jstr "not an object")) = .error .decode :=
  ⟨fun _ => rfl, fun _ => rfl, rfl, rfl, rfl, rfl⟩

-- C5 --------------------------------------------------------------------

theorem txnDelete_ok {cfg : EngineCfg} {p : Pending} {k : String} {p' : Pending}
    (h : txnDelete cfg p k = .ok p') : p' = p ++ [(k, none)] := by
  simp only [txnDelete] at h
  split at h
  · exact absurd h (by simp)
  · split at h
    · exact absurd h (by simp)
    · injection h with h
      exact h.symm

theorem deleteUsersLoop_all_none (s : Store) (cfg : EngineCfg) :
    ∀ (ids : List String) (pending : Pending),
      (∀ w ∈ pending, w.2 = (none : Option Val)) →
      ∀ w ∈ deleteUsersLoop s cfg pending ids, w.2 = (none : Option Val)
  | [], pending, hp, w, hw => hp w hw
  | id :: rest, pending, hp, w, hw => by
    rw [deleteUsersLoop] at hw
    cases hd : txnDelete cfg pending (s.keys.userPrefix ++ id) with
    | error er =>
      rw [hd] at hw
      exact deleteUsersLoop_all_none s cfg rest pending hp w hw
    | ok pending' =>
      rw [hd] at hw
      refine deleteUsersLoop_all_none s cfg rest pending' ?_ w hw
      intro w' hw'
      rw [txnDelete_ok hd] at hw'
      rcases List.mem_append.mp hw' with hmem | hmem
      · exact hp w' hmem
      · rw [List.mem_singleton.mp hmem]

theorem lastWrite_of_mem :
    ∀ (p : Pending) (k : String) (w : Option Val), (k, w) ∈ p →
      ∃ r, lastWrite p k = some r
  | (k', w') :: rest, k, w, hmem => by
    rcases List.mem_cons.mp hmem with heq | hmem
    · cases hl : lastWrite rest k with
      | some r => exact ⟨r, by rw [lastWrite, hl]⟩
      | none =>
        refine ⟨w', ?_⟩
        rw [lastWrite, hl]
        have hk : k' = k := congrArg Prod.fst heq.symm
        rw [if_pos hk]
    · obtain ⟨r, hr⟩ := lastWrite_of_mem rest k w hmem
      exact ⟨r, by rw [lastWrite, hr]⟩

theorem lastWrite_all_none :
    ∀ (p : Pending), (∀ w ∈ p, w.2 = (none : Option Val)) →
      ∀ (k : String) (r : Option Val), lastWrite p k = some r → r = none
  | [], _, k, r, h => by simp [lastWrite] at h
  | (k', w') :: rest, hall, k, r, h => by
    rw [lastWrite] at h
    cases hl : lastWrite rest k with
    | some r' =>
      rw [hl] at h
      injection h with h
      exact h ▸ lastWrite_all_none rest (fun w hw => hall w (List.mem_cons_of_mem _ hw)) k r' hl
    | none =>
      rw [hl] at h
      by_cases hk : k' = k
      · rw [if_pos hk] at h
        injection h with h
        rw [← h]
        exact hall (k', w') (List.mem_cons_self _ _)
      · rw [if_neg hk] at h
        exact absurd h (by simp)

/-- Claim C5: `DeleteUsers` is best-effort.  A per-id delete failure is only
reported and the loop continues with the next id; the overall call always
returns success, and every id whose delete the transaction accepted is absent
from the engine afterwards. -/
theorem deleteUsers_best_effort (s : Store) (cfg : EngineCfg) (e : Engine)
    (userIDs : List String) :
    (Store.DeleteUsers s cfg e userIDs).2 = .ok () ∧
    ∀ id, (s.keys.userPrefix ++ id, (none : Option Val)) ∈ deleteUsersLoop s cfg [] userIDs →
      engineGet (Store.DeleteUsers s cfg e userIDs).1 (s.keys.userPrefix ++ id) = none := by
  have hall := deleteUsersLoop_all_none s cfg userIDs [] (by simp)
  refine ⟨rfl, ?_⟩
  intro id hmem
  have hres : (Store.DeleteUsers s cfg e userIDs).1
      = commit e (deleteUsersLoop s cfg [] userIDs) := rfl
  rw [hres, engineGet_commit]
  obtain ⟨r, hr⟩ := lastWrite_of_mem _ _ _ hmem
  have hnone := lastWrite_all_none _ hall _ r hr
  subst hnone
  rw [hr]

theorem deleteUsers_best_effort_witness :
    (Store.DeleteUsers stdStore ⟨1⟩ [("user-X", Val.json (encodeUser userA))] ["X", "Y"]).2
      = .ok () ∧
    engineGet
      (Store.DeleteUsers stdStore ⟨1⟩ [("user-X", Val.json (encodeUser userA))] ["X", "Y"]).1
      ("user-" ++ "X") = none :=
  ⟨(deleteUsers_best_effort stdStore ⟨1⟩ [("user-X", Val.json (encodeUser userA))]
      ["X", "Y"]).1,
   (deleteUsers_best_effort stdStore ⟨1⟩ [("user-X", Val.json (encodeUser userA))]
      ["X", "Y"]).2 "X" (List.mem_singleton.mpr rfl)⟩

-- C1 witness ------------------------------------------------------------

theorem saveUsers_atomic_witness :
    (Store.SaveUsers stdStore ⟨2⟩ [] [userA, userB, userC]).2 = .error .txnTooBig ∧
    Store.GetUser stdStore (Store.SaveUsers stdStore ⟨2⟩ [] [userA, userB, userC]).1 "A"
      = .error .keyNotFound ∧
    ∃ u', u' ∈ [userA, userB] ∧ u'.PlexUserID = userA.PlexUserID ∧
      engineGet (Store.SaveUsers stdStore ⟨1000⟩ [] [userA, userB]).1
        (stdStore.keys.userPrefix ++ userA.PlexUserID) = some (Val.json (encodeUser u')) := by
  refine ⟨rfl, ?_, ?_⟩
  · exact ((saveUsers_atomic stdStore ⟨2⟩ [] [userA, userB, userC]).1 .txnTooBig rfl).2 "A" rfl
  · exact (saveUsers_atomic stdStore ⟨1000⟩ [] [userA, userB]).2 rfl userA
      (List.mem_cons_self _ _)

-- C10 -------------------------------------------------------------------

/-- Claim C10: the verbose flag is inert through the public constructor.  The
package-level flag starts at the Go zero value `false`, and because the
reassignment in `InitDataStore` is guarded by the flag already being true, no
call — nor any sequence of calls, for any directory name and any `_isVerbose`
argument — ever turns it on. -/
theorem verbose_flag_inert :
    isVerboseInitial = false ∧
    (∀ dirName b, (InitDataStore dirName b isVerboseInitial).2 = false) ∧
    (∀ calls : List (String × Bool),
      calls.foldl (fun v c => (InitDataStore c.1 c.2 v).2) isVerboseInitial = false) := by
  refine ⟨rfl, fun dirName b => rfl, fun calls => ?_⟩
  induction calls with
  | nil => rfl
  | cons c rest ih => exact ih




-- C2: counterexample -----------------------------------------------------

/-- Claim C2, as stated, is false: `GetAllUsers` iterates with `it.Valid()`,
which runs to the end of the keyspace instead of stopping at the first key
outside the user-record prefix.  On a sorted engine holding one record under
the key `zz` — outside the prefix — the scan seeked to `user-` still reaches
it and returns it, although no key of the engine begins with the prefix. -/
theorem prefixScan_claim_false : ¬ prefixScanClaim := by
  intro h
  have hsorted : EngineSorted [("zz", Val.json (encodeUser userZ))] :=
    List.chain'_singleton _
  have hmem : ("zzid", userZ)
      ∈ (Store.GetAllUsers stdStore [("zz", Val.json (encodeUser userZ))]).1 :=
    List.mem_singleton.mpr rfl
  obtain ⟨u, hu⟩ := h [("zz", Val.json (encodeUser userZ))] hsorted ("zzid", userZ) hmem
  have hkey : ("user-" ++ "zzid" : String) = "zz" :=
    congrArg Prod.fst (List.mem_singleton.mp hu)
  exact absurd hkey (by decide)

-- C2: amended statement ---------------------------------------------------

theorem engineSorted_dropWhile (P : String × Val → Bool) :
    ∀ (e : Engine), EngineSorted e → EngineSorted (List.dropWhile P e)
  | [], h => h
  | kv :: rest, h => by
    rw [List.dropWhile_cons]
    by_cases hP : P kv = true
    · rw [if_pos hP]
      exact engineSorted_dropWhile P rest (List.Chain'.tail h)
    · rw [if_neg hP]
      exact h

theorem engineSorted_head_lt :
    ∀ (x : String × Val) (rest : Engine), EngineSorted (x :: rest) →
      ∀ kv ∈ rest, strLt x.1 kv.1 = true
  | _, [], _, kv, hkv => absurd hkv (List.not_mem_nil _)
  | x, y :: rest, h, kv, hkv => by
    have hxy : strLt x.1 y.1 = true := (List.chain'_cons.mp h).1
    rcases List.mem_cons.mp hkv with heq | hmem
    · subst heq
      exact hxy
    · exact strLt_trans hxy
        (engineSorted_head_lt y rest (List.chain'_cons.mp h).2 kv hmem)

theorem dropWhile_all_not :
    ∀ (e : Engine), EngineSorted e →
      ∀ kv ∈ List.dropWhile (fun kv : String × Val => strLt kv.1 "user-") e,
        strLt kv.1 "user-" = false
  | [], _, kv, hkv => absurd hkv (List.not_mem_nil _)
  | x :: rest, h, kv, hkv => by
    rw [List.dropWhile_cons] at hkv
    by_cases hP : strLt x.1 "user-" = true
    · rw [if_pos hP] at hkv
      exact dropWhile_all_not rest (List.Chain'.tail h) kv hkv
    · rw [if_neg hP] at hkv
      rcases List.mem_cons.mp hkv with heq | hmem
      · subst heq
        exact Bool.eq_false_iff.mpr hP
      · have hlt := engineSorted_head_lt x rest h kv hmem
        cases hcontra : strLt kv.1 "user-" with
        | false => rfl
        | true => exact absurd (strLt_trans hlt hcontra) hP

theorem mem_dropWhile_of_not (e : Engine) (P : String × Val → Bool)
    (kv : String × Val) (hkv : kv ∈ e) (hP : P kv = false) :
    kv ∈ List.dropWhile P e := by
  have hsplit := List.takeWhile_append_dropWhile P e
  rw [← hsplit] at hkv
  rcases List.mem_append.mp hkv with h1 | h2
  · have := List.mem_takeWhile_imp h1
    rw [hP] at this
    exact absurd this (by simp)
  · exact h2

theorem exists_userList :
    ∀ l : List (String × Val),
      (∀ kv ∈ l, ∃ u : User,
        kv.1 = "user-" ++ u.PlexUserID ∧ kv.2 = Val.json (encodeUser u)) →
      ∃ us : List User,
        l = us.map (fun u => ("user-" ++ u.PlexUserID, Val.json (encodeUser u)))
  | [], _ => ⟨[], rfl⟩
  | kv :: rest, h => by
    obtain ⟨u, hk, hv⟩ := h kv (List.mem_cons_self _ _)
    obtain ⟨us, hus⟩ :=
      exists_userList rest (fun kv' hkv' => h kv' (List.mem_cons_of_mem _ hkv'))
    refine ⟨u :: us, ?_⟩
    rw [List.map_cons, ← hus]
    obtain ⟨k, v⟩ := kv
    simp only at hk hv
    rw [hk, hv]

theorem getAllUsersLoop_map :
    ∀ (us : List User) (acc : List (String × User)),
      getAllUsersLoop acc
        (us.map (fun u => ("user-" ++ u.PlexUserID, Val.json (encodeUser u))))
        = (us.foldl (fun m u => mapInsert m u.PlexUserID u) acc, none)
  | [], _ => rfl
  | u :: rest, acc => by
    rw [List.map_cons, getAllUsersLoop, unserialize_encodeUser]
    exact getAllUsersLoop_map rest (mapInsert acc u.PlexUserID u)

theorem mapLookup_insert_self (m : List (String × User)) (k : String) (u : User) :
    mapLookup (mapInsert m k u) k = some u := by
  induction m with
  | nil => simp [mapInsert, mapLookup]
  | cons p rest ih =>
    obtain ⟨k', u'⟩ := p
    rw [mapInsert]
    by_cases h : k' = k
    · rw [if_pos h, mapLookup, if_pos rfl]
    · rw [if_neg h, mapLookup, if_neg h]
      exact ih

theorem mapLookup_insert_ne (m : List (String × User)) (k q : String) (u : User)
    (h : k ≠ q) : mapLookup (mapInsert m k u) q = mapLookup m q := by
  induction m with
  | nil => simp [mapInsert, mapLookup, h]
  | cons p rest ih =>
    obtain ⟨k', u'⟩ := p
    rw [mapInsert]
    by_cases hk : k' = k
    · subst hk
      rw [if_pos rfl, mapLookup, mapLookup, if_neg h]
      rw [if_neg h]
    · rw [if_neg hk, mapLookup, mapLookup]
      by_cases h3 : k' = q
      · rw [if_pos h3, if_pos h3]
      · rw [if_neg h3, if_neg h3]
        exact ih

theorem mapLookup_foldl :
    ∀ (us : List User) (acc : List (String × User)) (id : String),
      mapLookup (us.foldl (fun m u => mapInsert m u.PlexUserID u) acc) id
        = match findPidLast us id with
          | some u => some u
          | none => mapLookup acc id
  | [], _, _ => rfl
  | u :: rest, acc, id => by
    rw [List.foldl_cons, mapLookup_foldl rest _ id, findPidLast]
    cases hf : findPidLast rest id with
    | some r => rfl
    | none =>
      by_cases hpid : u.PlexUserID = id
      · rw [if_pos hpid, ← hpid, mapLookup_insert_self]
      · rw [if_neg hpid, mapLookup_insert_ne _ _ _ _ hpid]

theorem findPidLast_some :
    ∀ (us : List User) (id : String) (u : User),
      findPidLast us id = some u → u ∈ us ∧ u.PlexUserID = id
  | [], id, u, h => by simp [findPidLast] at h
  | hd :: rest, id, u, h => by
    rw [findPidLast] at h
    cases hf : findPidLast rest id with
    | some r =>
      rw [hf] at h
      injection h with h
      obtain ⟨hmem, hpid⟩ := findPidLast_some rest id r hf
      exact ⟨List.mem_cons_of_mem _ (h ▸ hmem), h ▸ hpid⟩
    | none =>
      rw [hf] at h
      by_cases hpid : hd.PlexUserID = id
      · rw [if_pos hpid] at h
        injection h with h
        subst h
        exact ⟨List.mem_cons_self _ _, hpid⟩
      · rw [if_neg hpid] at h
        exact absurd h (by simp)

theorem findPidLast_of_mem :
    ∀ (us : List User), us.Pairwise (fun a b => a.PlexUserID ≠ b.PlexUserID) →
      ∀ (u : User) (id : String), u ∈ us → u.PlexUserID = id →
        findPidLast us id = some u
  | hd :: rest, hp, u, id, hmem, hpid => by
    rcases List.mem_cons.mp hmem with heq | hmem'
    · subst heq
      rw [findPidLast]
      cases hf : findPidLast rest id with
      | some r =>
        obtain ⟨hrmem, hrpid⟩ := findPidLast_some rest id r hf
        have hne := (List.pairwise_cons.mp hp).1 r hrmem
        exact absurd (hpid.trans hrpid.symm) hne
      | none =>
        rw [if_pos hpid]
    · rw [findPidLast,
        findPidLast_of_mem rest (List.pairwise_cons.mp hp).2 u id hmem' hpid]

theorem pids_pairwise (us : List User)
    (h : EngineSorted
      (us.map (fun u => ("user-" ++ u.PlexUserID, Val.json (encodeUser u))))) :
    us.Pairwise (fun a b => a.PlexUserID ≠ b.PlexUserID) := by
  haveI : IsTrans (String × Val) (fun a b => strLt a.1 b.1 = true) :=
    ⟨fun _ _ _ => strLt_trans⟩
  have hp := List.chain'_iff_pairwise.mp h
  rw [List.pairwise_map] at hp
  refine hp.imp ?_
  intro a b hab heq
  rw [heq] at hab
  simp only at hab
  exact absurd hab (by simp [strLt_irrefl])

/-- Claim C2 (amended): the scan of `GetAllUsers` runs from the first key at
or after the user-record prefix to the end of the keyspace; because every
singleton key the store writes sorts strictly before `user-` and the `users`
marker key is never written, on every well-formed engine state the result
contains exactly the user records — one per stored user key, keyed by
`PlexUserID` — and never the server-identity singleton. -/
theorem getAllUsers_wellFormed (s : Store) (e : Engine) (hk : s.keys = stdKeys)
    (h : WellFormed e) :
    (Store.GetAllUsers s e).2 = none ∧
    ∀ id u, mapLookup (Store.GetAllUsers s e).1 id = some u ↔
      (u.PlexUserID = id ∧ ("user-" ++ id, Val.json (encodeUser u)) ∈ e) := by
  obtain ⟨hsorted, hclass⟩ := h
  have hpfx : s.keys.userPrefix = "user-" := by rw [hk]; rfl
  have hscan : Store.GetAllUsers s e
      = getAllUsersLoop []
          (List.dropWhile (fun kv : String × Val => strLt kv.1 "user-") e) := by
    rw [Store.GetAllUsers, hpfx]
  have htail_not := dropWhile_all_not e hsorted
  have htail_user : ∀ kv ∈ List.dropWhile (fun kv : String × Val => strLt kv.1 "user-") e,
      ∃ u : User, kv.1 = "user-" ++ u.PlexUserID ∧ kv.2 = Val.json (encodeUser u) := by
    intro kv hkv
    have hmem_e : kv ∈ e := (List.dropWhile_sublist _).subset hkv
    rcases hclass kv hmem_e with hsing | huser
    · exfalso
      have hfalse := htail_not kv hkv
      rcases hsing with hcase | hcase | hcase | hcase <;> rw [hcase] at hfalse <;>
        exact absurd hfalse (by decide)
    · exact huser
  obtain ⟨us, hus⟩ := exists_userList _ htail_user
  have hres : Store.GetAllUsers s e
      = (us.foldl (fun m u => mapInsert m u.PlexUserID u) [], none) := by
    rw [hscan, hus, getAllUsersLoop_map]
  have hpair : us.Pairwise (fun a b => a.PlexUserID ≠ b.PlexUserID) :=
    pids_pairwise us (hus ▸ engineSorted_dropWhile _ e hsorted)
  refine ⟨by rw [hres], ?_⟩
  intro id u
  rw [hres]
  simp only
  rw [mapLookup_foldl]
  constructor
  · intro hl
    cases hf : findPidLast us id with
    | none =>
      rw [hf] at hl
      exact absurd hl (by simp [mapLookup])
    | some r =>
      rw [hf] at hl
      injection hl with hl
      rw [← hl]
      obtain ⟨hmem, hpid⟩ := findPidLast_some us id r hf
      refine ⟨hpid, ?_⟩
      have hmap : ("user-" ++ r.PlexUserID, Val.json (encodeUser r))
          ∈ us.map (fun u => ("user-" ++ u.PlexUserID, Val.json (encodeUser u))) :=
        List.mem_map_of_mem _ hmem
      rw [← hus] at hmap
      have hmem_e := (List.dropWhile_sublist _).subset hmap
      rw [hpid] at hmem_e
      exact hmem_e
  · rintro ⟨hpid, hmem⟩
    have hnotP : strLt ("user-" ++ id : String) "user-" = false := strLt_append_self _ _
    have hmem_tail := mem_dropWhile_of_not e
      (fun kv : String × Val => strLt kv.1 "user-") _ hmem hnotP
    rw [hus] at hmem_tail
    obtain ⟨u', hu'mem, hu'eq⟩ := List.mem_map.mp hmem_tail
    have hpid' : u'.PlexUserID = id := strAppend_cancel (congrArg Prod.fst hu'eq)
    have hveq : Val.json (encodeUser u') = Val.json (encodeUser u) :=
      congrArg Prod.snd hu'eq
    have henc : encodeUser u' = encodeUser u := by injection hveq
    have huu : u' = u := encodeUser_inj henc
    rw [findPidLast_of_mem us hpair u' id hu'mem hpid', huu]



theorem getAllUsers_wellFormed_witness :
    stdStore.keys = stdKeys ∧
    WellFormed
      [("plex-server", Val.json (encodeServer ⟨"srv", "http://srv"⟩)),
       ("user-A", Val.json (encodeUser userA)),
       ("user-B", Val.json (encodeUser userB)),
       ("user-C", Val.json (encodeUser userC))] ∧
    (Store.GetAllUsers stdStore
      [("plex-server", Val.json (encodeServer ⟨"srv", "http://srv"⟩)),
       ("user-A", Val.json (encodeUser userA)),
       ("user-B", Val.json (encodeUser userB)),
       ("user-C", Val.json (encodeUser userC))]).2 = none ∧
    mapLookup (Store.GetAllUsers stdStore
      [("plex-server", Val.json (encodeServer ⟨"srv", "http://srv"⟩)),
       ("user-A", Val.json (encodeUser userA)),
       ("user-B", Val.json (encodeUser userB)),
       ("user-C", Val.json (encodeUser userC))]).1 "B" = some userB ∧
    (Store.GetAllUsers stdStore
      [("plex-server", Val.json (encodeServer ⟨"srv", "http://srv"⟩)),
       ("user-A", Val.json (encodeUser userA)),
       ("user-B", Val.json (encodeUser userB)),
       ("user-C", Val.json (encodeUser userC))]).1
      = [("A", userA), ("B", userB), ("C", userC)] := by
  have hwf : WellFormed
      [("plex-server", Val.json (encodeServer ⟨"srv", "http://srv"⟩)),
       ("user-A", Val.json (encodeUser userA)),
       ("user-B", Val.json (encodeUser userB)),
       ("user-C", Val.json (encodeUser userC))] := by
    constructor
    · simp only [EngineSorted, List.chain'_cons, List.chain'_singleton, and_true]
      exact ⟨rfl, rfl, rfl⟩
    · intro kv hkv
      simp only [List.mem_cons, List.not_mem_nil, or_false] at hkv
      rcases hkv with rfl | rfl | rfl | rfl
      · exact Or.inl (Or.inr (Or.inr (Or.inr rfl)))
      · exact Or.inr ⟨userA, rfl, rfl⟩
      · exact Or.inr ⟨userB, rfl, rfl⟩
      · exact Or.inr ⟨userC, rfl, rfl⟩
  obtain ⟨h1, h2⟩ := getAllUsers_wellFormed stdStore _ rfl hwf
  refine ⟨rfl, hwf, h1, ?_, rfl⟩
  exact (h2 "B" userB).mpr ⟨rfl,
    List.mem_cons_of_mem _ (List.mem_cons_of_mem _ (List.mem_cons_self _ _))⟩


end Datastore
